import Mathlib

/-
Verification of the beam-deflection analysis core
(vendored sympy.physics.continuum_mechanics.beam, file
src/sympy.physics.continuum_mechanics.beam.py) against its
natural-language specification.

The development shallowly embeds the Beam class.  Symbolic sympy
expressions built from SingularityFunction terms are represented as
normalized finite maps from (start, order) keys to coefficients; a
coefficient is an affine combination of free symbols (such as reaction
unknowns R_0) with rational constants.  This mirrors the fact that
sympy Add normalizes sums, so that adding and then subtracting the same
term restores the identical expression.
-/

set_option linter.unusedSectionVars false
set_option linter.unusedVariables false

namespace BeamSpec

/-! ## Normalized association lists (the expression representation)

Entries are kept strictly sorted by key and never store a zero value,
so that two equal formal sums are represented by the same list, exactly
as two equal sympy Add expressions compare structurally equal. -/

abbrev Entries (κ ν : Type) := List (κ × ν)

section EntriesOps

variable {κ ν : Type} [LinearOrder κ] [AddCommGroup ν] [DecidableEq ν]

/-- Lookup of the coefficient stored at a key, 0 when absent. -/
def lookE : Entries κ ν → κ → ν
  | [], _ => 0
  | (k, v) :: t, k0 => if k = k0 then v else lookE t k0

/-- Merge of two sorted entry lists, adding coefficients at equal keys
and dropping zero sums. -/
def mergeE : Entries κ ν → Entries κ ν → Entries κ ν
  | [], m => m
  | l, [] => l
  | (k1, v1) :: t1, (k2, v2) :: t2 =>
    if k1 < k2 then (k1, v1) :: mergeE t1 ((k2, v2) :: t2)
    else if k2 < k1 then (k2, v2) :: mergeE ((k1, v1) :: t1) t2
    else if v1 + v2 = 0 then mergeE t1 t2
    else (k1, v1 + v2) :: mergeE t1 t2
termination_by l m => l.length + m.length

theorem mergeE_nil_left (m : Entries κ ν) : mergeE [] m = m := by rw [mergeE]

theorem mergeE_nil_right (l : Entries κ ν) : mergeE l [] = l := by
  cases l with
  | nil => rw [mergeE]
  | cons p t =>
    rw [mergeE]
    simp

/-- Pointwise negation of an entry list. -/
def negE (l : Entries κ ν) : Entries κ ν := l.map (fun p => (p.1, -p.2))

/-- Well-formedness: strictly ascending keys and no zero values. -/
def GoodE (l : Entries κ ν) : Prop :=
  l.Pairwise (fun a b => a.1 < b.1) ∧ ∀ p ∈ l, p.2 ≠ 0

theorem goodE_nil : GoodE ([] : Entries κ ν) := ⟨List.Pairwise.nil, by simp⟩

theorem goodE_tail {p : κ × ν} {t : Entries κ ν} (h : GoodE (p :: t)) : GoodE t :=
  ⟨h.1.tail, fun q hq => h.2 q (List.mem_cons_of_mem _ hq)⟩

theorem mem_mergeE {l m : Entries κ ν} {p : κ × ν} (h : p ∈ mergeE l m) :
    p.1 ∈ l.map Prod.fst ∨ p.1 ∈ m.map Prod.fst := by
  induction l, m using mergeE.induct with
  | case1 m =>
    rw [mergeE_nil_left] at h
    exact Or.inr (List.mem_map_of_mem _ h)
  | case2 l hl =>
    rw [mergeE_nil_right] at h
    exact Or.inl (List.mem_map_of_mem _ h)
  | case3 k1 v1 t1 k2 v2 t2 hlt ih =>
    rw [mergeE, if_pos hlt] at h
    rcases List.mem_cons.mp h with h | h
    · rw [h]
      exact Or.inl (List.mem_map_of_mem _ (List.mem_cons_self _ _))
    · rcases ih h with h | h
      · rw [List.map_cons]
        exact Or.inl (List.mem_cons_of_mem _ h)
      · exact Or.inr h
  | case4 k1 v1 t1 k2 v2 t2 hlt hgt ih =>
    rw [mergeE, if_neg hlt, if_pos hgt] at h
    rcases List.mem_cons.mp h with h | h
    · rw [h]
      exact Or.inr (List.mem_map_of_mem _ (List.mem_cons_self _ _))
    · rcases ih h with h | h
      · exact Or.inl h
      · rw [List.map_cons]
        exact Or.inr (List.mem_cons_of_mem _ h)
  | case5 k1 v1 t1 k2 v2 t2 hlt hgt hz ih =>
    rw [mergeE, if_neg hlt, if_neg hgt, if_pos hz] at h
    rcases ih h with h | h
    · rw [List.map_cons]
      exact Or.inl (List.mem_cons_of_mem _ h)
    · rw [List.map_cons]
      exact Or.inr (List.mem_cons_of_mem _ h)
  | case6 k1 v1 t1 k2 v2 t2 hlt hgt hz ih =>
    rw [mergeE, if_neg hlt, if_neg hgt, if_neg hz] at h
    rcases List.mem_cons.mp h with h | h
    · rw [h, List.map_cons]
      exact Or.inl (List.mem_cons_self _ _)
    · rcases ih h with h | h
      · rw [List.map_cons]
        exact Or.inl (List.mem_cons_of_mem _ h)
      · rw [List.map_cons]
        exact Or.inr (List.mem_cons_of_mem _ h)

theorem goodE_mergeE {l m : Entries κ ν} (hl : GoodE l) (hm : GoodE m) :
    GoodE (mergeE l m) := by
  induction l, m using mergeE.induct with
  | case1 m => rw [mergeE_nil_left]; exact hm
  | case2 l hl2 => rw [mergeE_nil_right]; exact hl
  | case3 k1 v1 t1 k2 v2 t2 hlt ih =>
    rw [mergeE, if_pos hlt]
    have ht := ih (goodE_tail hl) hm
    refine ⟨List.pairwise_cons.mpr ⟨?_, ht.1⟩, ?_⟩
    · intro p hp
      rcases mem_mergeE hp with h | h
      · rcases List.mem_map.mp h with ⟨q, hq, hq2⟩
        have := (List.pairwise_cons.mp hl.1).1 q hq
        rw [hq2] at this; exact this
      · rcases List.mem_map.mp h with ⟨q, hq, hq2⟩
        rcases List.mem_cons.mp hq with h2 | h2
        · rw [h2] at hq2; rw [← hq2]; exact hlt
        · have := (List.pairwise_cons.mp hm.1).1 q h2
          rw [hq2] at this; exact lt_trans hlt this
    · intro p hp
      rcases List.mem_cons.mp hp with h | h
      · rw [h]; exact hl.2 (k1, v1) (List.mem_cons_self _ _)
      · exact ht.2 p h
  | case4 k1 v1 t1 k2 v2 t2 hlt hgt ih =>
    rw [mergeE, if_neg hlt, if_pos hgt]
    have ht := ih hl (goodE_tail hm)
    refine ⟨List.pairwise_cons.mpr ⟨?_, ht.1⟩, ?_⟩
    · intro p hp
      rcases mem_mergeE hp with h | h
      · rcases List.mem_map.mp h with ⟨q, hq, hq2⟩
        rcases List.mem_cons.mp hq with h2 | h2
        · rw [h2] at hq2; rw [← hq2]; exact hgt
        · have := (List.pairwise_cons.mp hl.1).1 q h2
          rw [hq2] at this; exact lt_trans hgt this
      · rcases List.mem_map.mp h with ⟨q, hq, hq2⟩
        have := (List.pairwise_cons.mp hm.1).1 q hq
        rw [hq2] at this; exact this
    · intro p hp
      rcases List.mem_cons.mp hp with h | h
      · rw [h]; exact hm.2 (k2, v2) (List.mem_cons_self _ _)
      · exact ht.2 p h
  | case5 k1 v1 t1 k2 v2 t2 hlt hgt hz ih =>
    rw [mergeE, if_neg hlt, if_neg hgt, if_pos hz]
    exact ih (goodE_tail hl) (goodE_tail hm)
  | case6 k1 v1 t1 k2 v2 t2 hlt hgt hz ih =>
    rw [mergeE, if_neg hlt, if_neg hgt, if_neg hz]
    have heq : k1 = k2 := le_antisymm (not_lt.mp hgt) (not_lt.mp hlt)
    have ht := ih (goodE_tail hl) (goodE_tail hm)
    refine ⟨List.pairwise_cons.mpr ⟨?_, ht.1⟩, ?_⟩
    · intro p hp
      rcases mem_mergeE hp with h | h
      · rcases List.mem_map.mp h with ⟨q, hq, hq2⟩
        have := (List.pairwise_cons.mp hl.1).1 q hq
        rw [hq2] at this; exact this
      · rcases List.mem_map.mp h with ⟨q, hq, hq2⟩
        have := (List.pairwise_cons.mp hm.1).1 q hq
        rw [hq2] at this; rw [heq]; exact this
    · intro p hp
      rcases List.mem_cons.mp hp with h | h
      · rw [h]; exact hz
      · exact ht.2 p h

theorem lookE_eq_zero_of_forall {l : Entries κ ν} {k : κ}
    (h : ∀ p ∈ l, k < p.1) : lookE l k = 0 := by
  induction l with
  | nil => rfl
  | cons p t ih =>
    obtain ⟨k1, v1⟩ := p
    have hk : k1 ≠ k := by
      intro he
      exact absurd (he ▸ h (k1, v1) (List.mem_cons_self _ _)) (lt_irrefl k1)
    rw [lookE, if_neg hk]
    exact ih (fun q hq => h q (List.mem_cons_of_mem _ hq))

theorem lookE_nil (k : κ) : lookE ([] : Entries κ ν) k = 0 := rfl

theorem lookE_cons_self (k1 : κ) (v1 : ν) (t : Entries κ ν) :
    lookE ((k1, v1) :: t) k1 = v1 := by rw [lookE, if_pos rfl]

theorem lookE_cons_ne {k1 k : κ} (he : k1 ≠ k) (v1 : ν) (t : Entries κ ν) :
    lookE ((k1, v1) :: t) k = lookE t k := by rw [lookE, if_neg he]

theorem lookE_mergeE {l m : Entries κ ν} (hl : GoodE l) (hm : GoodE m) (k : κ) :
    lookE (mergeE l m) k = lookE l k + lookE m k := by
  induction l, m using mergeE.induct with
  | case1 m => rw [mergeE_nil_left, lookE_nil, zero_add]
  | case2 l hl2 => rw [mergeE_nil_right, lookE_nil, add_zero]
  | case3 k1 v1 t1 k2 v2 t2 hlt ih =>
    rw [mergeE, if_pos hlt]
    by_cases he : k1 = k
    · subst he
      have h2 : lookE ((k2, v2) :: t2) k1 = 0 := by
        refine lookE_eq_zero_of_forall ?_
        intro q hq
        rcases List.mem_cons.mp hq with h | h
        · rw [h]; exact hlt
        · exact lt_trans hlt ((List.pairwise_cons.mp hm.1).1 q h)
      rw [lookE_cons_self, lookE_cons_self, h2, add_zero]
    · rw [lookE_cons_ne he, ih (goodE_tail hl) hm, lookE_cons_ne he]
  | case4 k1 v1 t1 k2 v2 t2 hlt hgt ih =>
    rw [mergeE, if_neg hlt, if_pos hgt]
    by_cases he : k2 = k
    · subst he
      have h1 : lookE ((k1, v1) :: t1) k2 = 0 := by
        refine lookE_eq_zero_of_forall ?_
        intro q hq
        rcases List.mem_cons.mp hq with h | h
        · rw [h]; exact hgt
        · exact lt_trans hgt ((List.pairwise_cons.mp hl.1).1 q h)
      rw [lookE_cons_self, h1, zero_add, lookE_cons_self]
    · rw [lookE_cons_ne he, ih hl (goodE_tail hm), lookE_cons_ne he]
  | case5 k1 v1 t1 k2 v2 t2 hlt hgt hz ih =>
    rw [mergeE, if_neg hlt, if_neg hgt, if_pos hz]
    have heq : k1 = k2 := le_antisymm (not_lt.mp hgt) (not_lt.mp hlt)
    subst heq
    rw [ih (goodE_tail hl) (goodE_tail hm)]
    by_cases he : k1 = k
    · subst he
      have h1 : lookE t1 k1 = 0 :=
        lookE_eq_zero_of_forall (fun q hq => (List.pairwise_cons.mp hl.1).1 q hq)
      have h2 : lookE t2 k1 = 0 :=
        lookE_eq_zero_of_forall (fun q hq => (List.pairwise_cons.mp hm.1).1 q hq)
      rw [h1, h2, lookE_cons_self, lookE_cons_self, hz, add_zero]
    · rw [lookE_cons_ne he, lookE_cons_ne he]
  | case6 k1 v1 t1 k2 v2 t2 hlt hgt hz ih =>
    rw [mergeE, if_neg hlt, if_neg hgt, if_neg hz]
    have heq : k1 = k2 := le_antisymm (not_lt.mp hgt) (not_lt.mp hlt)
    subst heq
    by_cases he : k1 = k
    · subst he
      rw [lookE_cons_self, lookE_cons_self, lookE_cons_self]
    · rw [lookE_cons_ne he, ih (goodE_tail hl) (goodE_tail hm),
        lookE_cons_ne he, lookE_cons_ne he]

theorem goodE_negE {l : Entries κ ν} (hl : GoodE l) : GoodE (negE l) := by
  constructor
  · have := hl.1
    rw [negE, List.pairwise_map]
    exact this.imp (fun h => h)
  · intro p hp
    rcases List.mem_map.mp hp with ⟨q, hq, hq2⟩
    rw [← hq2]
    simpa using hl.2 q hq

theorem lookE_negE (l : Entries κ ν) (k : κ) : lookE (negE l) k = -lookE l k := by
  induction l with
  | nil => simp [negE, lookE]
  | cons p t ih =>
    obtain ⟨k1, v1⟩ := p
    by_cases he : k1 = k
    · subst he; simp [negE, lookE]
    · rw [negE, List.map_cons, lookE, if_neg he]
      conv_rhs => rw [lookE, if_neg he]
      exact ih

theorem extE {l m : Entries κ ν} (hl : GoodE l) (hm : GoodE m)
    (h : ∀ k, lookE l k = lookE m k) : l = m := by
  induction l generalizing m with
  | nil =>
    cases m with
    | nil => rfl
    | cons p t =>
      obtain ⟨k2, v2⟩ := p
      have h2 : lookE ((k2, v2) :: t) k2 = v2 := by rw [lookE, if_pos rfl]
      have := h k2
      rw [h2, lookE] at this
      exact absurd this.symm (hm.2 (k2, v2) (List.mem_cons_self _ _))
  | cons p t ih =>
    obtain ⟨k1, v1⟩ := p
    cases m with
    | nil =>
      have h1 : lookE ((k1, v1) :: t) k1 = v1 := by rw [lookE, if_pos rfl]
      have := h k1
      rw [h1, lookE] at this
      exact absurd this (hl.2 (k1, v1) (List.mem_cons_self _ _))
    | cons q t2 =>
      obtain ⟨k2, v2⟩ := q
      have hv1 : v1 ≠ 0 := hl.2 (k1, v1) (List.mem_cons_self _ _)
      have hv2 : v2 ≠ 0 := hm.2 (k2, v2) (List.mem_cons_self _ _)
      have hkk : k1 = k2 := by
        rcases lt_trichotomy k1 k2 with hc | hc | hc
        · exfalso
          have hr : lookE ((k2, v2) :: t2) k1 = 0 := by
            refine lookE_eq_zero_of_forall ?_
            intro r hr
            rcases List.mem_cons.mp hr with h3 | h3
            · rw [h3]; exact hc
            · exact lt_trans hc ((List.pairwise_cons.mp hm.1).1 r h3)
          have hlft : lookE ((k1, v1) :: t) k1 = v1 := by rw [lookE, if_pos rfl]
          have := h k1; rw [hlft, hr] at this; exact hv1 this
        · exact hc
        · exfalso
          have hr : lookE ((k1, v1) :: t) k2 = 0 := by
            refine lookE_eq_zero_of_forall ?_
            intro r hr
            rcases List.mem_cons.mp hr with h3 | h3
            · rw [h3]; exact hc
            · exact lt_trans hc ((List.pairwise_cons.mp hl.1).1 r h3)
          have hrgt : lookE ((k2, v2) :: t2) k2 = v2 := by rw [lookE, if_pos rfl]
          have := h k2; rw [hr, hrgt] at this; exact hv2 this.symm
      subst hkk
      have hvv : v1 = v2 := by
        have := h k1
        rw [lookE, if_pos rfl] at this
        conv_rhs at this => rw [lookE, if_pos rfl]
        exact this
      subst hvv
      have htail : ∀ k, lookE t k = lookE t2 k := by
        intro k
        by_cases he : k1 = k
        · subst he
          rw [lookE_eq_zero_of_forall (fun q hq => (List.pairwise_cons.mp hl.1).1 q hq),
            lookE_eq_zero_of_forall (fun q hq => (List.pairwise_cons.mp hm.1).1 q hq)]
        · have := h k
          rw [lookE, if_neg he] at this
          conv_rhs at this => rw [lookE, if_neg he]
          exact this
      rw [ih (goodE_tail hl) (goodE_tail hm) htail]

end EntriesOps

/-- A normalized finite formal sum: sorted entries with no zero values. -/
structure NMap (κ ν : Type) [LinearOrder κ] [AddCommGroup ν] [DecidableEq ν] where
  entries : Entries κ ν
  good : GoodE entries

namespace NMap

variable {κ ν : Type} [LinearOrder κ] [AddCommGroup ν] [DecidableEq ν]

theorem entries_injective {a b : NMap κ ν} (h : a.entries = b.entries) : a = b := by
  cases a; cases b; simpa using h

instance : DecidableEq (NMap κ ν) := fun a b =>
  decidable_of_iff (a.entries = b.entries) ⟨entries_injective, fun h => h ▸ rfl⟩

instance : Zero (NMap κ ν) := ⟨⟨[], goodE_nil⟩⟩

instance : Add (NMap κ ν) :=
  ⟨fun a b => ⟨mergeE a.entries b.entries, goodE_mergeE a.good b.good⟩⟩

instance : Neg (NMap κ ν) := ⟨fun a => ⟨negE a.entries, goodE_negE a.good⟩⟩

/-- Coefficient of the formal sum at a key (0 when absent). -/
def look (a : NMap κ ν) (k : κ) : ν := lookE a.entries k

theorem look_zero (k : κ) : (0 : NMap κ ν).look k = 0 := rfl

theorem look_add (a b : NMap κ ν) (k : κ) : (a + b).look k = a.look k + b.look k :=
  lookE_mergeE a.good b.good k

theorem look_neg (a : NMap κ ν) (k : κ) : (-a).look k = -a.look k :=
  lookE_negE a.entries k

theorem ext_look {a b : NMap κ ν} (h : ∀ k, a.look k = b.look k) : a = b :=
  entries_injective (extE a.good b.good h)

instance : AddCommGroup (NMap κ ν) where
  add_assoc a b c := ext_look (fun k => by simp [look_add, add_assoc])
  zero_add a := ext_look (fun k => by simp [look_add, look_zero])
  add_zero a := ext_look (fun k => by simp [look_add, look_zero])
  nsmul := nsmulRec
  zsmul := zsmulRec
  neg_add_cancel a := ext_look (fun k => by simp [look_add, look_neg, look_zero])
  add_comm a b := ext_look (fun k => by simp [look_add, add_comm])

/-- The formal sum consisting of a single term (the zero map if the
coefficient is zero, matching sympy where 0*f(x) evaluates to 0). -/
def single (k : κ) (v : ν) : NMap κ ν :=
  if h : v = 0 then 0
  else ⟨[(k, v)], ⟨List.pairwise_singleton _ _, by simpa using h⟩⟩

theorem look_single (k : κ) (v : ν) (k0 : κ) :
    (single k v).look k0 = if k = k0 then v else 0 := by
  by_cases hv : v = 0
  · subst hv
    rw [single, dif_pos rfl]
    by_cases he : k = k0 <;> simp [he, look_zero]
  · rw [single, dif_neg hv]
    by_cases he : k = k0
    · subst he; simp [look, lookE]
    · simp [look, lookE, if_neg he]

/-- Transform a formal sum term-by-term into another formal sum,
adding overlapping images (used for integration and substitution). -/
def foldAdd {κ2 ν2 : Type} [LinearOrder κ2] [AddCommGroup ν2] [DecidableEq ν2]
    (a : NMap κ ν) (f : κ → ν → NMap κ2 ν2) : NMap κ2 ν2 :=
  a.entries.foldr (fun p acc => f p.1 p.2 + acc) 0

end NMap

/-! ## Symbolic expressions of the Beam class

A sympy expression of the form `sum of c_i * SingularityFunction(x, a_i, n_i)`
is represented as a normalized map from the key `(a_i, n_i)` (ordered
lexicographically) to the coefficient `c_i`.  A coefficient is a rational
constant plus a rational linear combination of named symbols, which is
what every coefficient arising in beam.py is (reaction unknowns such as
R_0 and M_0 enter the load linearly). -/

/-- Symbolic coefficient: rational constant plus a finite linear
combination of named symbols. -/
abbrev Coef := ℚ × NMap String ℚ

/-- A purely numeric coefficient. -/
def constC (q : ℚ) : Coef := (q, 0)

/-- The coefficient consisting of a single named symbol. -/
def symC (s : String) : Coef := (0, NMap.single s 1)

/-- Rational scalar multiple of a coefficient. -/
def smulC (q : ℚ) (c : Coef) : Coef :=
  (q * c.1, c.2.foldAdd (fun s v => NMap.single s (q * v)))

/-- Key of a singularity term: the pair (start, order). -/
abbrev SKey := Lex (ℚ × ℤ)

/-- A symbolic singularity-function expression. -/
abbrev SymExpr := NMap SKey Coef

/-- The expression `value * SingularityFunction(x, start, order)`. -/
def sTerm (value : Coef) (start : ℚ) (order : ℤ) : SymExpr :=
  NMap.single (toLex (start, order)) value

/-- sympy integration of a singularity expression with respect to the
position variable: a term of order n is mapped to order n+1, scaled by
1/(n+1) when n is nonnegative (integration of the order -1 and -2 terms
only raises the order). -/
def integF (ex : SymExpr) : SymExpr :=
  ex.foldAdd (fun k c =>
    NMap.single (toLex ((ofLex k).1, (ofLex k).2 + 1))
      (if 0 ≤ (ofLex k).2 then smulC (1 / (((ofLex k).2 : ℚ) + 1)) c else c))

/-- Substitution of solved numeric values for some symbols in a
coefficient, as performed by sympy subs with a solution dictionary. -/
def subst_coef (sol : List (String × ℚ)) (c : Coef) : Coef :=
  c.2.entries.foldr
    (fun p acc => match List.lookup p.1 sol with
      | some v => (acc.1 + p.2 * v, acc.2)
      | none => (acc.1, acc.2 + NMap.single p.1 p.2))
    (c.1, 0)

/-- Substitution of solved numeric values into every coefficient of an
expression. -/
def subst_expr (sol : List (String × ℚ)) (ex : SymExpr) : SymExpr :=
  ex.foldAdd (fun k c => NMap.single k (subst_coef sol c))

/-! ## The Beam state

The mutable state of a Beam object (src/sympy.physics.continuum_mechanics.beam.py,
`Beam.__init__`).  The independent position variable is recorded by its
symbol name; `second_moment` may be a Piecewise built by `join`. -/

/-- One record of the `_applied_loads` list: the raw argument tuple
(value, start, order, end).  The optional end argument is stored exactly
as passed (the callers of this repository pass plain numbers). -/
structure PyLoad where
  value : Coef
  start : ℚ
  order : ℤ
  lend : Option ℚ
deriving DecidableEq

/-- The second moment of area: a plain expression, or the Piecewise
`((I1, x <= b1), (I2, x <= b2))` built by `Beam.join`. -/
inductive SecondMoment
  | plain (v : Coef)
  | piecewise (first : SecondMoment) (b1 : ℚ) (second : SecondMoment) (b2 : ℚ)
deriving DecidableEq

/-- The state of a Beam object. -/
structure Beam where
  length : ℚ
  elastic_modulus : Coef
  second_moment : SecondMoment
  area : Coef
  var : String
  base_char : String
  bc_slope : List (ℚ × ℚ)
  bc_deflection : List (ℚ × ℚ)
  load : SymExpr
  original_load : SymExpr
  applied_loads : List PyLoad
  applied_supports : List (ℚ × String)
  support_as_loads : List PyLoad
  reaction_loads : List (String × ℚ)
  composite_type : Option String
  hinge_position : Option ℚ
deriving DecidableEq

/-- `Beam.__init__` with all six parameters supplied. -/
def Beam.init6 (length : ℚ) (elastic_modulus : Coef) (second_moment : SecondMoment)
    (area : Coef) (var : String) (base_char : String) : Beam :=
  { length := length, elastic_modulus := elastic_modulus,
    second_moment := second_moment, area := area, var := var,
    base_char := base_char, bc_slope := [], bc_deflection := [],
    load := 0, original_load := 0, applied_loads := [],
    applied_supports := [], support_as_loads := [], reaction_loads := [],
    composite_type := none, hinge_position := none }

/-- `Beam.__init__` with four positional arguments: the fourth parameter
of the constructor is `area`; `variable` and `base_char` take their
defaults Symbol(x) and C. -/
def Beam.init4 (length : ℚ) (elastic_modulus : Coef) (second_moment : SecondMoment)
    (area : Coef) : Beam :=
  Beam.init6 length elastic_modulus second_moment area "x" "C"

/-- `Beam.__init__` with three positional arguments: `area` takes its
default Symbol(A). -/
def Beam.init3 (length : ℚ) (elastic_modulus : Coef) (second_moment : SecondMoment) : Beam :=
  Beam.init4 length elastic_modulus second_moment (symC "A")

/-- Python truthiness of the raw `end` argument: None and 0 are falsy.
Both `apply_load` and `remove_load` guard the end handling with
`if end:`. -/
def truthy : Option ℚ → Bool
  | none => false
  | some q => decide (q ≠ 0)

/-- The error message of `Beam._handle_end` for a negative order. -/
def end_error_msg : String :=
  "If end is provided the order of the load cannot be negative, i.e. end is only valid for distributed loads."

/-- The error message of `Beam.remove_load` for an unknown record. -/
def no_load_msg : String := "No such load distribution exists on the beam object."

/-- The Taylor coefficient of the i-th truncating term emitted by
`Beam._handle_end`:  f.diff(x, i).subs(x, end - start) / factorial(i)
with f = value * x**order, divided by value. -/
def taylor_coef (order : ℤ) (start e : ℚ) (i : ℕ) : ℚ :=
  (Nat.descFactorial order.toNat i : ℚ) * (e - start) ^ (order.toNat - i) / (Nat.factorial i : ℚ)

/-- The full truncating correction of `Beam._handle_end`: one
singularity term of each order 0..order anchored at the end point. -/
def end_correction (value : Coef) (start : ℚ) (order : ℤ) (e : ℚ) : SymExpr :=
  ((List.range (order.toNat + 1)).map
    (fun i => sTerm (smulC (taylor_coef order start e i) value) e (i : ℤ))).sum

/-- `Beam.apply_load`.  The record is appended and the term added to the
live and original load expressions first, exactly as in the source;
only then is the end handling performed, which either subtracts the
truncating correction or raises (returns) the negative-order error. -/
def Beam.apply_load (b : Beam) (value : Coef) (start : ℚ) (order : ℤ) (e : Option ℚ) :
    Beam × Option String :=
  let b1 : Beam := { b with
    applied_loads := b.applied_loads ++ [⟨value, start, order, e⟩],
    load := b.load + sTerm value start order,
    original_load := b.original_load + sTerm value start order }
  if truthy e then
    if order < 0 then (b1, some end_error_msg)
    else ({ b1 with
      load := b1.load - end_correction value start order (e.getD 0),
      original_load := b1.original_load - end_correction value start order (e.getD 0) }, none)
  else (b1, none)

/-- `Beam.remove_load`.  An exact match of a previously applied record
is required; the first matching record is removed (Python list.remove),
the term is subtracted from both expressions and the end handling adds
the truncating correction back. -/
def Beam.remove_load (b : Beam) (value : Coef) (start : ℚ) (order : ℤ) (e : Option ℚ) :
    Beam × Option String :=
  if (⟨value, start, order, e⟩ : PyLoad) ∈ b.applied_loads then
    let b1 : Beam := { b with
      load := b.load - sTerm value start order,
      original_load := b.original_load - sTerm value start order,
      applied_loads := b.applied_loads.erase ⟨value, start, order, e⟩ }
    if truthy e then
      if order < 0 then (b1, some end_error_msg)
      else ({ b1 with
        load := b1.load + end_correction value start order (e.getD 0),
        original_load := b1.original_load + end_correction value start order (e.getD 0) }, none)
    else (b1, none)
  else (b, some no_load_msg)

/-- `Beam.apply_support`.  The support is recorded; a pin or roller
introduces one reaction-force symbol applied as an order -1 load plus a
deflection boundary condition; any other type string (the default is
fixed) additionally introduces a reaction-moment symbol as an order -2
load and a slope boundary condition. -/
def Beam.apply_support (b : Beam) (loc : ℚ) (type_ : String) : Beam :=
  let b0 : Beam := { b with applied_supports := b.applied_supports ++ [(loc, type_)] }
  let reaction_load := "R_" ++ toString loc
  if type_ = "pin" ∨ type_ = "roller" then
    let b1 := (b0.apply_load (symC reaction_load) loc (-1) none).1
    let b2 : Beam := { b1 with bc_deflection := b1.bc_deflection ++ [(loc, 0)] }
    { b2 with support_as_loads := b2.support_as_loads ++ [⟨symC reaction_load, loc, -1, none⟩] }
  else
    let reaction_moment := "M_" ++ toString loc
    let b1 := (b0.apply_load (symC reaction_load) loc (-1) none).1
    let b2 := (b1.apply_load (symC reaction_moment) loc (-2) none).1
    let b3 : Beam := { b2 with
      bc_deflection := b2.bc_deflection ++ [(loc, 0)],
      bc_slope := b2.bc_slope ++ [(loc, 0)],
      support_as_loads := b2.support_as_loads ++ [⟨symC reaction_moment, loc, -2, none⟩] }
    { b3 with support_as_loads := b3.support_as_loads ++ [⟨symC reaction_load, loc, -1, none⟩] }

/-- `Beam.join`.  A fresh Beam is constructed from the combined length,
the elastic modulus and (possibly Piecewise) second moment; the calling
object and the argument are not modified.  Note that the source passes
`x`, the position variable of the calling beam, as the FOURTH positional
constructor argument, which is `area`; the variable of the new beam is
therefore the default Symbol(x).  For a `via` string other than fixed or
hinge the method falls through and returns None. -/
def Beam.join (b : Beam) (beam : Beam) (via : String) : Option Beam :=
  let x := b.var
  let E := b.elastic_modulus
  let new_length := b.length + beam.length
  let new_second_moment :=
    if b.second_moment ≠ beam.second_moment then
      SecondMoment.piecewise b.second_moment b.length beam.second_moment new_length
    else b.second_moment
  if via = "fixed" then
    some { Beam.init4 new_length E new_second_moment (symC x) with
      composite_type := some "fixed" }
  else if via = "hinge" then
    some { Beam.init4 new_length E new_second_moment (symC x) with
      composite_type := some "hinge", hinge_position := some b.length }
  else none

/-- The state update performed by `Beam.solve_for_reaction_loads` on the
non-hinge path, given the solution `sol` returned by linsolve for the
reaction symbols: only `_reaction_loads` is stored and the solved values
are substituted into the live `_load`; the original load expression is
not touched.  (The hinge path delegates to `_solve_hinge_beams`, whose
equation system is embedded separately below; it likewise substitutes
into `_load` only.) -/
def Beam.solve_for_reaction_loads_nonhinge (b : Beam) (sol : List (String × ℚ)) : Beam :=
  { b with reaction_loads := sol, load := subst_expr sol b.load }

/-- `Beam._solve_for_ild_equations`: the shear force and bending moment
used by all influence-line computations, derived by integrating the
UNSUBSTITUTED copy `_original_load` of the load equation. -/
def Beam.solve_for_ild_equations (b : Beam) : SymExpr × SymExpr :=
  (-integF b.original_load, integF (-integF b.original_load))

/-! ## Claims about the load bookkeeping (C1, C6, C7, C8, C10) -/

theorem perm_erase_append {α : Type} [DecidableEq α] (l : List α) (a : α) :
    ((l ++ [a]).erase a).Perm l := by
  by_cases h : a ∈ l
  · rw [List.erase_append_left _ h]
    exact (List.perm_append_singleton _ _).trans (List.perm_cons_erase h).symm
  · rw [List.erase_append_right _ h, List.erase_cons_head, List.append_nil]

/-- What it means for a state after remove_load to have restored the
state before the matching apply_load: both load expressions and all
bookkeeping lists are back to their prior values, except that the
applied-loads list is only restored up to permutation (exactly restored
whenever the applied record was not already present). -/
def C1restored (b bfinal : Beam) (r : PyLoad) : Prop :=
  bfinal.load = b.load ∧
  bfinal.original_load = b.original_load ∧
  (bfinal.applied_loads : Multiset PyLoad) = (b.applied_loads : Multiset PyLoad) ∧
  (r ∉ b.applied_loads → bfinal.applied_loads = b.applied_loads) ∧
  bfinal.bc_slope = b.bc_slope ∧
  bfinal.bc_deflection = b.bc_deflection ∧
  bfinal.applied_supports = b.applied_supports ∧
  bfinal.support_as_loads = b.support_as_loads ∧
  bfinal.reaction_loads = b.reaction_loads

/-- Claim C1 (amended).  For every Beam and argument tuple on which
apply_load succeeds, remove_load with the identical arguments succeeds
and restores the load expression and the original load expression to
exactly their prior values, reversing any end-truncation correction;
the applied-loads list is restored as a multiset, and exactly restored
whenever an identical record was not already on the beam (Python
list.remove removes the first equal record, so a pre-existing duplicate
changes the order of the surviving records). -/
theorem claim_C1_amended (b : Beam) (value : Coef) (start : ℚ) (order : ℤ) (e : Option ℚ)
    (hsucc : (b.apply_load value start order e).2 = none) :
    ((b.apply_load value start order e).1.remove_load value start order e).2 = none ∧
    C1restored b ((b.apply_load value start order e).1.remove_load value start order e).1
      ⟨value, start, order, e⟩ := by
  have hmem : (⟨value, start, order, e⟩ : PyLoad) ∈
      b.applied_loads ++ [⟨value, start, order, e⟩] :=
    List.mem_append.mpr (Or.inr (List.mem_cons_self _ _))
  by_cases ht : truthy e
  · by_cases ho : order < 0
    · exfalso
      rw [Beam.apply_load, if_pos ht, if_pos ho] at hsucc
      exact Option.some_ne_none _ hsucc
    · rw [Beam.apply_load, if_pos ht, if_neg ho]
      rw [Beam.remove_load]
      rw [if_pos hmem, if_pos ht, if_neg ho]
      refine ⟨rfl, ?_, ?_, ?_, ?_, rfl, rfl, rfl, rfl, rfl⟩
      · show b.load + sTerm value start order -
          end_correction value start order (e.getD 0) - sTerm value start order +
          end_correction value start order (e.getD 0) = b.load
        abel
      · show b.original_load + sTerm value start order -
          end_correction value start order (e.getD 0) - sTerm value start order +
          end_correction value start order (e.getD 0) = b.original_load
        abel
      · exact Multiset.coe_eq_coe.mpr (perm_erase_append _ _)
      · intro hnot
        show (b.applied_loads ++ [_]).erase _ = b.applied_loads
        rw [List.erase_append_right _ hnot, List.erase_cons_head, List.append_nil]
  · rw [Beam.apply_load, if_neg ht]
    rw [Beam.remove_load]
    rw [if_pos hmem, if_neg ht]
    refine ⟨rfl, ?_, ?_, ?_, ?_, rfl, rfl, rfl, rfl, rfl⟩
    · show b.load + sTerm value start order - sTerm value start order = b.load
      abel
    · show b.original_load + sTerm value start order - sTerm value start order =
        b.original_load
      abel
    · exact Multiset.coe_eq_coe.mpr (perm_erase_append _ _)
    · intro hnot
      show (b.applied_loads ++ [_]).erase _ = b.applied_loads
      rw [List.erase_append_right _ hnot, List.erase_cons_head, List.append_nil]

/-- Witness for C1: a ramp load of order 1 with an end point inside the
beam is applied and removed; all hypotheses hold and the theorem applies. -/
theorem claim_C1_witness :
    ((Beam.init3 10 (constC 1) (SecondMoment.plain (constC 1))).apply_load
        (constC 3) 1 1 (some 2)).2 = none ∧
    (((Beam.init3 10 (constC 1) (SecondMoment.plain (constC 1))).apply_load
        (constC 3) 1 1 (some 2)).1.remove_load (constC 3) 1 1 (some 2)).2 = none ∧
    C1restored (Beam.init3 10 (constC 1) (SecondMoment.plain (constC 1)))
      (((Beam.init3 10 (constC 1) (SecondMoment.plain (constC 1))).apply_load
        (constC 3) 1 1 (some 2)).1.remove_load (constC 3) 1 1 (some 2)).1
      ⟨constC 3, 1, 1, some 2⟩ := by
  refine ⟨by decide, ?_⟩
  exact claim_C1_amended (Beam.init3 10 (constC 1) (SecondMoment.plain (constC 1)))
    (constC 3) 1 1 (some 2) (by decide)

/-- Counterexample for C1 as frozen: when the applied record duplicates
an existing one that is followed by another record, apply_load followed
by remove_load with identical arguments changes the applied-loads list
(Python list.remove removes the FIRST equal record), even though the
apply_load succeeded; the load expression itself is restored. -/
theorem claim_C1_counterexample :
    (((((((Beam.init3 10 (constC 1) (SecondMoment.plain (constC 1))).apply_load
        (constC 1) 0 (-1) none).1.apply_load
        (constC 2) 1 (-1) none).1).apply_load
        (constC 1) 0 (-1) none).1.remove_load
        (constC 1) 0 (-1) none).1.applied_loads ≠
      (((Beam.init3 10 (constC 1) (SecondMoment.plain (constC 1))).apply_load
        (constC 1) 0 (-1) none).1.apply_load
        (constC 2) 1 (-1) none).1.applied_loads) ∧
    ((((((Beam.init3 10 (constC 1) (SecondMoment.plain (constC 1))).apply_load
        (constC 1) 0 (-1) none).1.apply_load
        (constC 2) 1 (-1) none).1).apply_load
        (constC 1) 0 (-1) none).2 = none) := by
  constructor
  · decide
  · decide

/-- Claim C6 (amended).  apply_load with a negative order and a truthy
end raises the distributed-loads-only error, but only AFTER the record
has been appended and the primary singularity term added to both load
expressions: the failed call leaves the beam with the half-applied load.
Moreover, when end = 0 is passed (not None, but falsy in Python), no
error is raised at all and the end handling is skipped entirely. -/
theorem claim_C6_amended (b : Beam) (value : Coef) (start : ℚ) (order : ℤ) (ev : ℚ)
    (hord : order < 0) :
    (ev ≠ 0 →
      b.apply_load value start order (some ev) =
        ({ b with
            applied_loads := b.applied_loads ++ [⟨value, start, order, some ev⟩],
            load := b.load + sTerm value start order,
            original_load := b.original_load + sTerm value start order },
          some end_error_msg)) ∧
    b.apply_load value start order (some 0) =
      ({ b with
          applied_loads := b.applied_loads ++ [⟨value, start, order, some 0⟩],
          load := b.load + sTerm value start order,
          original_load := b.original_load + sTerm value start order },
        none) := by
  constructor
  · intro hev
    have ht : truthy (some ev) = true := by
      rw [truthy]; exact decide_eq_true hev
    rw [Beam.apply_load, if_pos ht, if_pos hord]
  · have ht : truthy (some 0) = false := by rw [truthy]; simp
    rw [Beam.apply_load]
    rw [if_neg (by rw [ht]; exact Bool.false_ne_true)]

/-- Witness for C6: a point load (order -1) with end point 2. -/
theorem claim_C6_witness :
    ((-1 : ℤ) < 0) ∧
    (((2 : ℚ) ≠ 0 →
      (Beam.init3 4 (constC 1) (SecondMoment.plain (constC 1))).apply_load
          (constC 5) 0 (-1) (some 2) =
        ({ Beam.init3 4 (constC 1) (SecondMoment.plain (constC 1)) with
            applied_loads := (Beam.init3 4 (constC 1)
              (SecondMoment.plain (constC 1))).applied_loads ++
              [⟨constC 5, 0, -1, some 2⟩],
            load := (Beam.init3 4 (constC 1) (SecondMoment.plain (constC 1))).load +
              sTerm (constC 5) 0 (-1),
            original_load := (Beam.init3 4 (constC 1)
              (SecondMoment.plain (constC 1))).original_load + sTerm (constC 5) 0 (-1) },
          some end_error_msg)) ∧
      (Beam.init3 4 (constC 1) (SecondMoment.plain (constC 1))).apply_load
          (constC 5) 0 (-1) (some 0) =
        ({ Beam.init3 4 (constC 1) (SecondMoment.plain (constC 1)) with
            applied_loads := (Beam.init3 4 (constC 1)
              (SecondMoment.plain (constC 1))).applied_loads ++
              [⟨constC 5, 0, -1, some 0⟩],
            load := (Beam.init3 4 (constC 1) (SecondMoment.plain (constC 1))).load +
              sTerm (constC 5) 0 (-1),
            original_load := (Beam.init3 4 (constC 1)
              (SecondMoment.plain (constC 1))).original_load + sTerm (constC 5) 0 (-1) },
          none)) :=
  ⟨by decide, claim_C6_amended (Beam.init3 4 (constC 1) (SecondMoment.plain (constC 1)))
    (constC 5) 0 (-1) 2 (by decide)⟩

/-- Counterexample for C6 as frozen: the claim asserts the failed call
leaves the beam state unchanged; in fact after the error the record has
been appended, so the applied-loads list differs. -/
theorem claim_C6_counterexample :
    ((Beam.init3 4 (constC 1) (SecondMoment.plain (constC 1))).apply_load
        (constC 5) 0 (-1) (some 2)).2 = some end_error_msg ∧
    ((Beam.init3 4 (constC 1) (SecondMoment.plain (constC 1))).apply_load
        (constC 5) 0 (-1) (some 2)).1.applied_loads ≠
      (Beam.init3 4 (constC 1) (SecondMoment.plain (constC 1))).applied_loads := by
  constructor
  · decide
  · decide

/-- Claim C7.  solve_for_reaction_loads substitutes the solved reaction
values into the live load expression and stores the solution, but the
original (pre-substitution) load expression is untouched; the
influence-line equations (the shear and bending moment used by
solve_for_ild_reactions, solve_for_ild_shear and solve_for_ild_moment)
are computed from the original load expression alone, so they are
invariant under any change of the live load expression. -/
theorem claim_C7 (b : Beam) (sol : List (String × ℚ)) (l2 : SymExpr) :
    (b.solve_for_reaction_loads_nonhinge sol).original_load = b.original_load ∧
    (b.solve_for_reaction_loads_nonhinge sol).load = subst_expr sol b.load ∧
    (b.solve_for_reaction_loads_nonhinge sol).reaction_loads = sol ∧
    Beam.solve_for_ild_equations { b with load := l2 } = b.solve_for_ild_equations ∧
    b.solve_for_ild_equations =
      (-integF b.original_load, integF (-integF b.original_load)) :=
  ⟨rfl, rfl, rfl, rfl, rfl⟩

/-- Claim C8.  apply_support at loc with pin or roller adds exactly one
reaction-force symbol R_loc applied as an order -1 load at loc plus one
deflection boundary condition (loc, 0) and the support bookkeeping
records, and nothing else; with fixed it adds the reaction force as an
order -1 load and a reaction moment M_loc as an order -2 load, plus both
a deflection and a slope boundary condition (loc, 0). -/
theorem claim_C8 (b : Beam) (loc : ℚ) :
    (∀ ty, ty = "pin" ∨ ty = "roller" →
      b.apply_support loc ty =
        { b with
          applied_supports := b.applied_supports ++ [(loc, ty)],
          applied_loads := b.applied_loads ++
            [⟨symC ("R_" ++ toString loc), loc, -1, none⟩],
          load := b.load + sTerm (symC ("R_" ++ toString loc)) loc (-1),
          original_load := b.original_load +
            sTerm (symC ("R_" ++ toString loc)) loc (-1),
          bc_deflection := b.bc_deflection ++ [(loc, 0)],
          support_as_loads := b.support_as_loads ++
            [⟨symC ("R_" ++ toString loc), loc, -1, none⟩] }) ∧
    b.apply_support loc "fixed" =
      { b with
        applied_supports := b.applied_supports ++ [(loc, "fixed")],
        applied_loads := b.applied_loads ++
          [⟨symC ("R_" ++ toString loc), loc, -1, none⟩] ++
          [⟨symC ("M_" ++ toString loc), loc, -2, none⟩],
        load := b.load + sTerm (symC ("R_" ++ toString loc)) loc (-1) +
          sTerm (symC ("M_" ++ toString loc)) loc (-2),
        original_load := b.original_load +
          sTerm (symC ("R_" ++ toString loc)) loc (-1) +
          sTerm (symC ("M_" ++ toString loc)) loc (-2),
        bc_deflection := b.bc_deflection ++ [(loc, 0)],
        bc_slope := b.bc_slope ++ [(loc, 0)],
        support_as_loads := b.support_as_loads ++
          [⟨symC ("M_" ++ toString loc), loc, -2, none⟩] ++
          [⟨symC ("R_" ++ toString loc), loc, -1, none⟩] } := by
  constructor
  · intro ty hty
    rcases hty with h | h <;> subst h <;> rfl
  · rfl

/-- Witness for C8: a concrete beam with a pin support applied at 2. -/
theorem claim_C8_witness :
    (("pin" : String) = "pin" ∨ ("pin" : String) = "roller") ∧
    (Beam.init3 8 (constC 1) (SecondMoment.plain (constC 1))).apply_support 2 "pin" =
      { Beam.init3 8 (constC 1) (SecondMoment.plain (constC 1)) with
        applied_supports := (Beam.init3 8 (constC 1)
          (SecondMoment.plain (constC 1))).applied_supports ++ [(2, "pin")],
        applied_loads := (Beam.init3 8 (constC 1)
          (SecondMoment.plain (constC 1))).applied_loads ++
          [⟨symC ("R_" ++ toString (2 : ℚ)), 2, -1, none⟩],
        load := (Beam.init3 8 (constC 1) (SecondMoment.plain (constC 1))).load +
          sTerm (symC ("R_" ++ toString (2 : ℚ))) 2 (-1),
        original_load := (Beam.init3 8 (constC 1)
          (SecondMoment.plain (constC 1))).original_load +
          sTerm (symC ("R_" ++ toString (2 : ℚ))) 2 (-1),
        bc_deflection := (Beam.init3 8 (constC 1)
          (SecondMoment.plain (constC 1))).bc_deflection ++ [(2, 0)],
        support_as_loads := (Beam.init3 8 (constC 1)
          (SecondMoment.plain (constC 1))).support_as_loads ++
          [⟨symC ("R_" ++ toString (2 : ℚ)), 2, -1, none⟩] } :=
  ⟨Or.inl rfl,
    (claim_C8 (Beam.init3 8 (constC 1) (SecondMoment.plain (constC 1))) 2).1 "pin"
      (Or.inl rfl)⟩

/-- The conclusion of claim C10 for a given pair of beams and join kind. -/
def C10concl (b1 b2 : Beam) (via : String) : Prop :=
  ∃ nb, b1.join b2 via = some nb ∧
    nb.area = symC b1.var ∧
    nb.var = "x" ∧
    nb.load = 0 ∧ nb.original_load = 0 ∧ nb.applied_loads = [] ∧
    nb.applied_supports = [] ∧ nb.support_as_loads = [] ∧
    nb.bc_slope = [] ∧ nb.bc_deflection = [] ∧ nb.reaction_loads = [] ∧
    nb.composite_type = some via ∧
    nb.length = b1.length + b2.length ∧
    (via = "hinge" → nb.hinge_position = some b1.length)

/-- Claim C10.  join with via fixed or hinge returns a freshly
constructed Beam carrying none of the loads, supports or boundary
conditions of either source beam; because the position variable of the
first beam is passed as the fourth positional constructor argument (the
area parameter), the cross-sectional area of the composite equals the
position-variable symbol of the first beam while its position variable
is the default Symbol(x), whatever the variable of the first beam was.
The source beams are not modified (the embedded join is a pure
function of its arguments, as the source constructs a new Beam and
writes no attribute of self or of the argument). -/
theorem claim_C10 (b1 b2 : Beam) (via : String)
    (h : via = "fixed" ∨ via = "hinge") : C10concl b1 b2 via := by
  rcases h with h | h
  · subst h
    exact ⟨_, rfl, rfl, rfl, rfl, rfl, rfl, rfl, rfl, rfl, rfl, rfl, rfl, rfl,
      fun hf => absurd hf (by decide)⟩
  · subst h
    exact ⟨_, rfl, rfl, rfl, rfl, rfl, rfl, rfl, rfl, rfl, rfl, rfl, rfl, rfl,
      fun _ => rfl⟩

/-- Witness for C10: two concrete beams, the first with position
variable y (not the default), joined via fixed. -/
theorem claim_C10_witness :
    (("fixed" = "fixed" ∨ ("fixed" : String) = "hinge") ∧
      C10concl (Beam.init6 3 (constC 1) (SecondMoment.plain (constC 1)) (constC 1) "y" "C")
        (Beam.init3 5 (constC 1) (SecondMoment.plain (constC 2))) "fixed") :=
  ⟨Or.inl rfl,
    claim_C10 (Beam.init6 3 (constC 1) (SecondMoment.plain (constC 1)) (constC 1) "y" "C")
      (Beam.init3 5 (constC 1) (SecondMoment.plain (constC 2))) "fixed" (Or.inl rfl)⟩

/-! ## The equation pipeline

The reaction solver and the extremum analysis operate on singularity
expressions by integration, one-sided limits and evaluation.  For these
claims the expressions are represented as plain term lists (formal sums,
where the order of terms is irrelevant because only evaluations of the
sums are stated).  A numeric variant (all coefficients rational) and a
symbolic variant (coefficients affine in the reaction symbols) are
given; the symbolic one is related to the numeric one by substitution
of an assignment of the symbols. -/

/-- A numeric singularity term `c * SingularityFunction(x, a, n)`. -/
structure NTerm where
  c : ℚ
  a : ℚ
  n : ℤ
deriving DecidableEq

/-- A numeric singularity expression: a formal sum of terms. -/
abbrev NExpr := List NTerm

/-- sympy integration: order n goes to n+1; the coefficient is divided
by n+1 when n is nonnegative. -/
def integN (ex : NExpr) : NExpr :=
  ex.map (fun t =>
    if 0 ≤ t.n then ⟨t.c / ((t.n : ℚ) + 1), t.a, t.n + 1⟩ else ⟨t.c, t.a, t.n + 1⟩)

/-- Negation of a numeric expression. -/
def negN (ex : NExpr) : NExpr := ex.map (fun t => ⟨-t.c, t.a, t.n⟩)

/-- One-sided limit from the right, x -> p+ (the default direction of
sympy limit): a term of nonnegative order anchored at or before p
contributes c*(p-a)^n (with 0^0 = 1); Dirac-type terms of negative
order contribute 0. -/
def limitRN (ex : NExpr) (p : ℚ) : ℚ :=
  (ex.map (fun t =>
    if 0 ≤ t.n ∧ t.a ≤ p then t.c * (p - t.a) ^ t.n.toNat else 0)).sum

/-- One-sided limit from the left, x -> p-: only terms anchored
strictly before p contribute. -/
def limitLN (ex : NExpr) (p : ℚ) : ℚ :=
  (ex.map (fun t =>
    if 0 ≤ t.n ∧ t.a < p then t.c * (p - t.a) ^ t.n.toNat else 0)).sum

/-- sympy subs(x, p): SingularityFunction(p, a, n) is 0 for p < a and
(p-a)^n for p >= a (with 0^0 = 1) when n is nonnegative.  A term of
negative order evaluates to 0 away from its anchor; the development
only evaluates expressions of nonnegative order, or negative-order
terms away from their anchors, so the anchor case of the Dirac terms
(where sympy returns zoo/oo) is never exercised. -/
def subsN (ex : NExpr) (p : ℚ) : ℚ :=
  (ex.map (fun t =>
    if 0 ≤ t.n ∧ t.a ≤ p then t.c * (p - t.a) ^ t.n.toNat else 0)).sum

/-- `Beam.shear_force`: minus the integral of the load. -/
def shearN (load : NExpr) : NExpr := negN (integN load)

/-- `Beam.bending_moment`: the integral of the shear force. -/
def bendN (load : NExpr) : NExpr := integN (shearN load)

/-- An affine combination of named symbols: a rational constant plus a
list of (symbol, coefficient) pairs. -/
abbrev Aff := ℚ × List (String × ℚ)

/-- Value of an affine combination under an assignment of the symbols. -/
def Aff.eval (ρ : String → ℚ) (v : Aff) : ℚ :=
  v.1 + (v.2.map (fun p => p.2 * ρ p.1)).sum

/-- Rational scalar multiple of an affine combination. -/
def Aff.scale (q : ℚ) (v : Aff) : Aff :=
  (q * v.1, v.2.map (fun p => (p.1, q * p.2)))

/-- Sum of two affine combinations. -/
def Aff.addA (v w : Aff) : Aff := (v.1 + w.1, v.2 ++ w.2)

/-- A symbolic singularity term: the coefficient is affine in the
reaction symbols, which is the shape of every load expression built by
beam.py before the reactions are solved. -/
structure STerm where
  c : Aff
  a : ℚ
  n : ℤ

/-- A symbolic singularity expression. -/
abbrev SExpr := List STerm

/-- Integration of a symbolic expression (same rule as integN). -/
def integS (ex : SExpr) : SExpr :=
  ex.map (fun t =>
    if 0 ≤ t.n then ⟨Aff.scale (1 / ((t.n : ℚ) + 1)) t.c, t.a, t.n + 1⟩
    else ⟨t.c, t.a, t.n + 1⟩)

/-- Negation of a symbolic expression. -/
def negS (ex : SExpr) : SExpr := ex.map (fun t => ⟨Aff.scale (-1) t.c, t.a, t.n⟩)

/-- One-sided limit from the right of a symbolic expression: an affine
combination of the symbols. -/
def limitRS : SExpr → ℚ → Aff
  | [], _ => (0, [])
  | t :: tl, p =>
    Aff.addA
      (if 0 ≤ t.n ∧ t.a ≤ p then Aff.scale ((p - t.a) ^ t.n.toNat) t.c else (0, []))
      (limitRS tl p)

/-- Substitution of a full assignment of the symbols, yielding a
numeric expression (sympy subs with a reaction-value dictionary). -/
def substS (ρ : String → ℚ) (ex : SExpr) : NExpr :=
  ex.map (fun t => ⟨Aff.eval ρ t.c, t.a, t.n⟩)

/-- `Beam.shear_force` on a symbolic load. -/
def shearS (load : SExpr) : SExpr := negS (integS load)

/-- `Beam.bending_moment` on a symbolic load. -/
def bendS (load : SExpr) : SExpr := integS (shearS load)

theorem eval_scale (ρ : String → ℚ) (q : ℚ) (v : Aff) :
    Aff.eval ρ (Aff.scale q v) = q * Aff.eval ρ v := by
  obtain ⟨c, l⟩ := v
  rw [Aff.eval, Aff.eval, Aff.scale]
  simp only [List.map_map]
  rw [mul_add]
  congr 1
  induction l with
  | nil => simp
  | cons p t ih =>
    simp only [List.map_cons, List.sum_cons, Function.comp, ih]
    ring

theorem eval_addA (ρ : String → ℚ) (v w : Aff) :
    Aff.eval ρ (Aff.addA v w) = Aff.eval ρ v + Aff.eval ρ w := by
  obtain ⟨c, l⟩ := v
  obtain ⟨c2, l2⟩ := w
  rw [Aff.eval, Aff.eval, Aff.eval, Aff.addA]
  simp only [List.map_append, List.sum_append]
  ring

/-- Substitution commutes with the right limit: substituting solved
values into the expression and taking the limit agrees with evaluating
the symbolic limit at the solved values. -/
theorem limitRN_substS (ρ : String → ℚ) (ex : SExpr) (p : ℚ) :
    limitRN (substS ρ ex) p = Aff.eval ρ (limitRS ex p) := by
  induction ex with
  | nil => simp [substS, limitRN, limitRS, Aff.eval]
  | cons t tl ih =>
    show (if 0 ≤ t.n ∧ t.a ≤ p then Aff.eval ρ t.c * (p - t.a) ^ t.n.toNat else 0) +
      limitRN (substS ρ tl) p = Aff.eval ρ (limitRS (t :: tl) p)
    rw [ih, limitRS, eval_addA]
    by_cases hc : 0 ≤ t.n ∧ t.a ≤ p
    · rw [if_pos hc, if_pos hc, eval_scale]
      ring
    · rw [if_neg hc, if_neg hc]
      simp [Aff.eval]

/-- Substitution commutes with integration. -/
theorem substS_integS (ρ : String → ℚ) (ex : SExpr) :
    substS ρ (integS ex) = integN (substS ρ ex) := by
  rw [substS, integS, integN, substS, List.map_map, List.map_map]
  refine List.map_congr_left ?_
  intro t _
  by_cases hc : 0 ≤ t.n
  · simp only [Function.comp, if_pos hc, eval_scale]
    rw [one_div, inv_mul_eq_div]
  · simp only [Function.comp, if_pos, if_neg hc]

/-- Substitution commutes with negation. -/
theorem substS_negS (ρ : String → ℚ) (ex : SExpr) :
    substS ρ (negS ex) = negN (substS ρ ex) := by
  rw [substS, negS, negN, substS, List.map_map, List.map_map]
  refine List.map_congr_left ?_
  intro t _
  simp only [Function.comp, eval_scale]
  rw [neg_one_mul]

theorem substS_shearS (ρ : String → ℚ) (ex : SExpr) :
    substS ρ (shearS ex) = shearN (substS ρ ex) := by
  rw [shearS, shearN, substS_negS, substS_integS]

theorem substS_bendS (ρ : String → ℚ) (ex : SExpr) :
    substS ρ (bendS ex) = bendN (substS ρ ex) := by
  rw [bendS, bendN, substS_integS, substS_shearS]

/-- Claim C9.  For a beam whose solved reaction assignment satisfies
the two equilibrium equations assembled by solve_for_reaction_loads
(the right limits at x = L of the shear force, minus the integral of
the load, and of the bending moment, its further integral, set to
zero), both one-sided limits at L vanish exactly: evaluated at the
solved values on the symbolic curves (before substitution), and on the
curves derived from the load expression with the solved reaction
values substituted in (after substitution). -/
theorem claim_C9 (load : SExpr) (L : ℚ) (ρ : String → ℚ)
    (hshear : Aff.eval ρ (limitRS (shearS load) L) = 0)
    (hmoment : Aff.eval ρ (limitRS (bendS load) L) = 0) :
    Aff.eval ρ (limitRS (shearS load) L) = 0 ∧
    Aff.eval ρ (limitRS (bendS load) L) = 0 ∧
    limitRN (shearN (substS ρ load)) L = 0 ∧
    limitRN (bendN (substS ρ load)) L = 0 := by
  refine ⟨hshear, hmoment, ?_, ?_⟩
  · rw [← substS_shearS, limitRN_substS]
    exact hshear
  · rw [← substS_bendS, limitRN_substS]
    exact hmoment

/-- Witness for C9: the simply supported beam of length 4 with pin at
0, roller at 4 and point load -6 at x = 2, at the solved reactions
R_0 = R_4 = 3. -/
theorem claim_C9_witness :
    (Aff.eval (fun s => if s = "R_0" then 3 else if s = "R_4" then 3 else 0)
      (limitRS (shearS [⟨(0, [("R_0", 1)]), 0, -1⟩, ⟨(-6, []), 2, -1⟩,
        ⟨(0, [("R_4", 1)]), 4, -1⟩]) 4) = 0) ∧
    (Aff.eval (fun s => if s = "R_0" then 3 else if s = "R_4" then 3 else 0)
      (limitRS (bendS [⟨(0, [("R_0", 1)]), 0, -1⟩, ⟨(-6, []), 2, -1⟩,
        ⟨(0, [("R_4", 1)]), 4, -1⟩]) 4) = 0) ∧
    (limitRN (shearN (substS (fun s => if s = "R_0" then 3 else if s = "R_4" then 3 else 0)
      [⟨(0, [("R_0", 1)]), 0, -1⟩, ⟨(-6, []), 2, -1⟩, ⟨(0, [("R_4", 1)]), 4, -1⟩])) 4 = 0) ∧
    (limitRN (bendN (substS (fun s => if s = "R_0" then 3 else if s = "R_4" then 3 else 0)
      [⟨(0, [("R_0", 1)]), 0, -1⟩, ⟨(-6, []), 2, -1⟩, ⟨(0, [("R_4", 1)]), 4, -1⟩])) 4 = 0) := by
  have h1 : Aff.eval (fun s => if s = "R_0" then 3 else if s = "R_4" then 3 else 0)
      (limitRS (shearS [⟨(0, [("R_0", 1)]), 0, -1⟩, ⟨(-6, []), 2, -1⟩,
        ⟨(0, [("R_4", 1)]), 4, -1⟩]) 4) = 0 := by
    norm_num [shearS, negS, integS, limitRS, Aff.eval, Aff.scale, Aff.addA]
  have h2 : Aff.eval (fun s => if s = "R_0" then 3 else if s = "R_4" then 3 else 0)
      (limitRS (bendS [⟨(0, [("R_0", 1)]), 0, -1⟩, ⟨(-6, []), 2, -1⟩,
        ⟨(0, [("R_4", 1)]), 4, -1⟩]) 4) = 0 := by
    norm_num [bendS, shearS, negS, integS, limitRS, Aff.eval, Aff.scale, Aff.addA]
  exact claim_C9 _ 4 _ h1 h2

/-! ## The hinge solver (_solve_hinge_beams), claim C5

The hinge equations are linear in the integration constants, the hinge
force h and the reactions, so their satisfaction is stated of an
assignment: the applied-load records carry the reaction values already
evaluated at that assignment.  The embedding covers the uniform
second-moment case (I not Piecewise, hence I1 = I2 = I in the source). -/

/-- An applied-load record with the (possibly reaction-valued)
coefficient evaluated at the assignment under consideration. -/
structure HLoad where
  value : ℚ
  start : ℚ
  order : ℤ
  lend : Option ℚ

/-- Terms contributed by one applied-load record to the load expression
of the first segment in _solve_hinge_beams: a record starting strictly
left of the hinge contributes its primary term and, for nonnegative
orders, the truncation terms re-derived at its end point; a record
exactly at the hinge contributes its primary term only. -/
def seg1Terms (l : ℚ) (r : HLoad) : List NTerm :=
  if r.start < l then
    if r.order = 0 then
      [⟨r.value, r.start, r.order⟩, ⟨-r.value, r.lend.getD 0, r.order⟩]
    else if 0 < r.order then
      [⟨r.value, r.start, r.order⟩, ⟨-r.value, r.lend.getD 0, r.order⟩,
       ⟨-r.value, r.lend.getD 0, 0⟩]
    else [⟨r.value, r.start, r.order⟩]
  else if r.start = l then [⟨r.value, r.start, r.order⟩]
  else []

/-- Terms contributed by one record to the second-segment load
expression, re-anchored at x - l. -/
def seg2Terms (l : ℚ) (r : HLoad) : List NTerm :=
  if r.start < l then []
  else if r.start = l then [⟨r.value, r.start - l, r.order⟩]
  else
    if r.order = 0 then
      [⟨r.value, r.start - l, r.order⟩, ⟨-r.value, r.lend.getD 0 - l, r.order⟩]
    else if 0 < r.order then
      [⟨r.value, r.start - l, r.order⟩, ⟨-r.value, r.lend.getD 0 - l, r.order⟩,
       ⟨-r.value, r.lend.getD 0 - l, 0⟩]
    else [⟨r.value, r.start - l, r.order⟩]

/-- The first-segment load: the distributed applied loads plus the
hinge force h applied at the hinge position. -/
def hingeLoad1 (loads : List HLoad) (l h : ℚ) : NExpr :=
  (loads.map (seg1Terms l)).flatten ++ [⟨h, l, -1⟩]

/-- The second-segment load: the distributed applied loads minus the
hinge force at the local origin. -/
def hingeLoad2 (loads : List HLoad) (l h : ℚ) : NExpr :=
  (loads.map (seg2Terms l)).flatten ++ [⟨-h, 0, -1⟩]

/-- slope_1 = (integral of bending_1 + C1) / (E*I1), evaluated at x. -/
def slope1Val (L1 : NExpr) (E I c1 x : ℚ) : ℚ :=
  (subsN (integN (integN (integN L1))) x + c1) / (E * I)

/-- def_1 = (integrate((E*I)*slope_1) + C1*x + C2) / (E*I1): with
uniform I this is the fourth integral of the load plus TWICE C1*x plus
C2 (the source adds C1*x although integrate((E*I)*slope_1) already
contains it), all over E*I. -/
def def1Val (L1 : NExpr) (E I c1 c2 x : ℚ) : ℚ :=
  (subsN (integN (integN (integN (integN L1)))) x + 2 * c1 * x + c2) / (E * I)

/-- slope_2 = (triple integral of load_2 + C3) / (E*I2). -/
def slope2Val (L2 : NExpr) (E I c3 x : ℚ) : ℚ :=
  (subsN (integN (integN (integN L2))) x + c3) / (E * I)

/-- def_2 = (integrate((E*I)*slope_2) + C4) / (E*I2) = fourth integral
of load_2 plus C3*x plus C4, over E*I. -/
def def2Val (L2 : NExpr) (E I c3 c4 x : ℚ) : ℚ :=
  (subsN (integN (integN (integN (integN L2)))) x + c3 * x + c4) / (E * I)

/-- The equation system assembled by _solve_hinge_beams, each equation
given as the quantity the solver sets to zero, in source order: the
right limits at the far end of each segment of its shear (one integral)
and bending moment (two integrals), the slope boundary conditions
(dispatched to the segment containing the position), the deflection
boundary conditions, and the equal-deflection-at-the-hinge equation. -/
def hingeSystem (loads : List HLoad) (l Lt E I c1 c2 c3 c4 h : ℚ)
    (bcs bcd : List (ℚ × ℚ)) : List ℚ :=
  [limitRN (integN (hingeLoad1 loads l h)) l,
   limitRN (integN (integN (hingeLoad1 loads l h))) l,
   limitRN (integN (hingeLoad2 loads l h)) (Lt - l),
   limitRN (integN (integN (hingeLoad2 loads l h))) (Lt - l)] ++
  bcs.map (fun pv =>
    if pv.1 < l then slope1Val (hingeLoad1 loads l h) E I c1 pv.1 - pv.2
    else slope2Val (hingeLoad2 loads l h) E I c3 (pv.1 - l) - pv.2) ++
  bcd.map (fun pv =>
    if pv.1 < l then def1Val (hingeLoad1 loads l h) E I c1 c2 pv.1 - pv.2
    else def2Val (hingeLoad2 loads l h) E I c3 c4 (pv.1 - l) - pv.2) ++
  [def1Val (hingeLoad1 loads l h) E I c1 c2 l -
    def2Val (hingeLoad2 loads l h) E I c3 c4 0]

/-- Claim C5.  For a composite beam joined by a hinge at l (with
uniform second moment), any solution of the system assembled by
_solve_hinge_beams makes the deflection of segment 1 at the hinge equal
to the deflection of segment 2 at its local origin: the stitched
whole-beam deflection expression is continuous at the hinge.  The
hypothesis on the end points records the embedding domain: the source
dereferences the stored end point of every distributed record. -/
theorem claim_C5 (loads : List HLoad) (l Lt E I c1 c2 c3 c4 h : ℚ)
    (bcs bcd : List (ℚ × ℚ))
    (hends : ∀ r ∈ loads, r.order < 0 ∨ r.lend.isSome)
    (hsys : ∀ q ∈ hingeSystem loads l Lt E I c1 c2 c3 c4 h bcs bcd, q = 0) :
    def1Val (hingeLoad1 loads l h) E I c1 c2 l =
      def2Val (hingeLoad2 loads l h) E I c3 c4 0 := by
  have hmem : (def1Val (hingeLoad1 loads l h) E I c1 c2 l -
      def2Val (hingeLoad2 loads l h) E I c3 c4 0) ∈
      hingeSystem loads l Lt E I c1 c2 c3 c4 h bcs bcd := by
    rw [hingeSystem]
    simp
  have hz := hsys _ hmem
  linarith [hz]

/-- The concrete hinge beam used as witness for C5: total length 2,
hinge at 1, fixed support at 0, roller at 2, point load -6 at 3/2,
E = I = 1; records carry the solved reaction values R_0 = 3, M_0 = -3,
R_2 = 3, and the solution has C1 = 0, C2 = 0, C3 = 5/8, C4 = -1,
h = -3. -/
def C5loads : List HLoad :=
  [⟨3, 0, -1, none⟩, ⟨-3, 0, -2, none⟩, ⟨3, 2, -1, none⟩, ⟨-6, 3/2, -1, none⟩]

/-- Witness for C5: the concrete solved hinge beam satisfies every
equation of the assembled system, and the theorem yields the equal
deflections at the hinge. -/
theorem claim_C5_witness :
    (∀ r ∈ C5loads, r.order < 0 ∨ r.lend.isSome) ∧
    (∀ q ∈ hingeSystem C5loads 1 2 1 1 0 0 (5/8) (-1) (-3) [(0, 0)] [(0, 0), (2, 0)],
      q = 0) ∧
    def1Val (hingeLoad1 C5loads 1 (-3)) 1 1 0 0 1 =
      def2Val (hingeLoad2 C5loads 1 (-3)) 1 1 (5/8) (-1) 0 := by
  have hs : ∀ q ∈ hingeSystem C5loads 1 2 1 1 0 0 (5/8) (-1) (-3)
      [(0, 0)] [(0, 0), (2, 0)], q = 0 := by
    intro q hq
    norm_num [hingeSystem, hingeLoad1, hingeLoad2, C5loads, seg1Terms, seg2Terms,
      integN, limitRN, subsN, def1Val, def2Val, slope1Val, slope2Val, Int.toNat] at hq
    exact hq
  have hend : ∀ r ∈ C5loads, r.order < 0 ∨ r.lend.isSome := by
    intro r hr
    simp only [C5loads, List.mem_cons, List.not_mem_nil, or_false] at hr
    rcases hr with h | h | h | h <;> subst h <;> simp
  refine ⟨hend, hs, ?_⟩
  exact claim_C5 C5loads 1 2 1 1 0 0 (5/8) (-1) (-3) [(0, 0)] [(0, 0), (2, 0)] hend hs

/-! ## Claim C3: singular systems in solve_for_reaction_loads -/

/-- The load expression of the C3 scenario at reaction values r0, r4:
pin at 0, roller at 4, point load -6 at 2 on a beam of length 4.
solve_for_reaction_loads is called with unknowns (R_0, R_4, R_f) where
R_f is a third symbol occurring in no equation, so the assembled system
is under-determined. -/
def loadC3 (r0 r4 : ℚ) : NExpr := [⟨r0, 0, -1⟩, ⟨-6, 2, -1⟩, ⟨r4, 4, -1⟩]

/-- The deflection curve assembled by solve_for_reaction_loads:
integrate(integrate(bending_moment) + C3) + C4, evaluated at x. -/
def deflCurveC3 (r0 r4 c3 c4 x : ℚ) : ℚ :=
  subsN (integN (integN (bendN (loadC3 r0 r4)))) x + c3 * x + c4

/-- Satisfaction of the linear system assembled by
solve_for_reaction_loads in the C3 scenario by an assignment of the
unknown tuple (C3, C4, R_0, R_4, R_f): the shear and moment right
limits at the beam length and the two deflection boundary conditions
set to zero.  R_f occurs in no equation. -/
def sysC3 (c3 c4 r0 r4 rf : ℚ) : Prop :=
  limitRN (shearN (loadC3 r0 r4)) 4 = 0 ∧
  limitRN (bendN (loadC3 r0 r4)) 4 = 0 ∧
  deflCurveC3 r0 r4 c3 c4 0 = 0 ∧
  deflCurveC3 r0 r4 c3 c4 4 = 0

theorem sysC3_iff (c3 c4 r0 r4 rf : ℚ) :
    sysC3 c3 c4 r0 r4 rf ↔ (c3 = 6 ∧ c4 = 0 ∧ r0 = 3 ∧ r4 = 3) := by
  rw [sysC3]
  norm_num [loadC3, deflCurveC3, shearN, bendN, integN, negN, limitRN, subsN, Int.toNat]
  constructor
  · rintro ⟨h1, h2, h3, h4⟩
    constructor
    · linarith
    constructor
    · linarith
    constructor
    · linarith
    · linarith
  · rintro ⟨h1, h2, h3, h4⟩
    subst h1; subst h2; subst h3; subst h4
    norm_num

/-- Modelled from the documented behaviour of sympy linsolve, which is
library code external to this repository: on a consistent
under-determined system linsolve does not raise; it returns the
solution set parametrized by the free unknowns (here R_f, which occurs
in no equation).  With the unknown order (C3, C4, R_0, R_4, R_f) the
single element of the returned set for the C3 system is the tuple
(6, 0, 3, 3, R_f).  Theorem claim_C3_amended proves that this
parametric family is exactly the solution set of the embedded system,
justifying the model. -/
def linsolveFirstC3 : List Aff :=
  [(6, []), (0, []), (3, []), (3, []), (0, [("R_f", 1)])]

/-- The reaction assignment stored by solve_for_reaction_loads in the
C3 scenario: the source drops the first two entries (the integration
constants) and zips the remainder with the reaction symbols; the call
completes without raising and the value recorded for R_f is the free
symbol R_f itself. -/
def reactionResultC3 : Option (List (String × Aff)) :=
  some (List.zip ["R_0", "R_4", "R_f"] (linsolveFirstC3.drop 2))

/-- Claim C3 (amended).  When the system assembled by
solve_for_reaction_loads is under-determined, the call does not fail
and no unresolved symbols are reported: linsolve returns a parametric
solution and the method silently stores a parametric reaction
assignment (the free symbol is mapped to itself).  Concretely, for the
embedded under-determined scenario every value of R_f solves the
system, every solution has (C3, C4, R_0, R_4) = (6, 0, 3, 3), and the
stored assignment maps R_f to the symbolic value R_f.  (For an
inconsistent system linsolve returns an empty set and the source line
list(...args)[0] raises an IndexError, which likewise names no
symbols.) -/
theorem claim_C3_amended :
    (∀ t : ℚ, sysC3 6 0 3 3 t) ∧
    (∀ c3 c4 r0 r4 rf, sysC3 c3 c4 r0 r4 rf →
      c3 = 6 ∧ c4 = 0 ∧ r0 = 3 ∧ r4 = 3) ∧
    reactionResultC3 =
      some [("R_0", ((3 : ℚ), [])), ("R_4", (3, [])), ("R_f", (0, [("R_f", 1)]))] := by
  refine ⟨fun t => (sysC3_iff 6 0 3 3 t).mpr ⟨rfl, rfl, rfl, rfl⟩,
    fun c3 c4 r0 r4 rf h => (sysC3_iff c3 c4 r0 r4 rf).mp h, rfl⟩

/-- Witness for C3: the theorem applied at the concrete free value 5. -/
theorem claim_C3_witness :
    sysC3 6 0 3 3 5 ∧
    ((6 : ℚ) = 6 ∧ (0 : ℚ) = 0 ∧ (3 : ℚ) = 3 ∧ (3 : ℚ) = 3) :=
  ⟨claim_C3_amended.1 5, claim_C3_amended.2.1 6 0 3 3 5 (claim_C3_amended.1 5)⟩

/-- Counterexample to C3 as frozen: the assembled system of the
embedded scenario is under-determined (two distinct assignments, with
free component 0 and 1, both satisfy it), yet the embedded call
completes and silently stores a parametric assignment: the value
recorded for R_f is the non-constant affine expression R_f. -/
theorem claim_C3_counterexample :
    sysC3 6 0 3 3 0 ∧ sysC3 6 0 3 3 1 ∧ ((0 : ℚ) ≠ 1) ∧
    reactionResultC3 =
      some [("R_0", ((3 : ℚ), [])), ("R_4", (3, [])), ("R_f", (0, [("R_f", 1)]))] ∧
    (("R_f", ((0 : ℚ), [("R_f", (1 : ℚ))])) ∈ reactionResultC3.getD []) ∧
    ([("R_f", (1 : ℚ))] : List (String × ℚ)) ≠ [] := by
  refine ⟨(sysC3_iff 6 0 3 3 0).mpr ⟨rfl, rfl, rfl, rfl⟩,
    (sysC3_iff 6 0 3 3 1).mpr ⟨rfl, rfl, rfl, rfl⟩,
    by norm_num, rfl, by simp [reactionResultC3, linsolveFirstC3], by simp⟩

/-! ## The extremum scan (max_bmoment) and claim C2 -/

/-- Insertion into a sorted list of rationals. -/
def insertQ (q : ℚ) : List ℚ → List ℚ
  | [] => [q]
  | a :: t => if q ≤ a then q :: a :: t else a :: insertQ q t

/-- Insertion sort (the source sorts the singularity list). -/
def sortQ (l : List ℚ) : List ℚ := l.foldr insertQ []

/-- Removal of adjacent duplicates; on a sorted list this removes all
duplicates.  The source deduplicates with a Python set AFTER sorting,
leaving the iteration order unspecified; the embedding takes the sorted
order (for the C2 curve the scan result is the same under any order,
as the candidate values at each singularity point are recorded in every
case). -/
def dedupAdj : List ℚ → List ℚ
  | [] => []
  | [a] => [a]
  | a :: b :: t => if a = b then dedupAdj (b :: t) else a :: dedupAdj (b :: t)

/-- The singularity points of a curve: the anchor points of its terms,
sorted and de-duplicated. -/
def singularityPoints (ex : NExpr) : List ℚ :=
  dedupAdj (sortQ (ex.map (fun t => t.a)))

/-- A candidate location: a point, or a whole interval (the
constant-curve fallback of the source records a sympy Interval object
instead of a coordinate). -/
inductive PtOrI
  | pt (q : ℚ)
  | ival (lo hi : ℚ)
deriving DecidableEq

/-- Python max of a nonempty list of rationals. -/
def pyMax (l : List ℚ) : ℚ := l.foldl max (l.headD 0)

/-- Python list.index: position of the first occurrence. -/
def idxOf (l : List ℚ) (q : ℚ) : ℕ := l.indexOf q

/-- One iteration of the interval scan for the interval (prev, s).
`res` models the outcome of the sympy solve call on the derivative
curve restricted to the open interval: `some zs` is a returned root
list (the try branch: |curve| at each root together with the one-sided
limits at the two ends are candidates, and the largest is recorded with
its location); `none` is a NotImplementedError (the except branch: if
the curve is affine on the interval with different end values, both end
values and end points are recorded raw; otherwise the single final
value is recorded with the whole Interval). -/
def scanStep (curve : NExpr) (res : Option (List ℚ)) (prev s : ℚ) :
    List ℚ × List PtOrI :=
  match res with
  | some zs =>
    let cand_pts := zs ++ [prev, s]
    let vals := zs.map (fun z => |subsN curve z|) ++
      [|limitRN curve prev|, |limitLN curve s|]
    let m := pyMax vals
    ([m], [PtOrI.pt (cand_pts.getD (idxOf vals m) 0)])
  | none =>
    let ini := limitRN curve prev
    let fin := limitLN curve s
    if subsN curve ((prev + s) / 2) = (ini + fin) / 2 ∧ ini ≠ fin then
      ([ini, fin], [PtOrI.pt prev, PtOrI.pt s])
    else ([fin], [PtOrI.ival prev s])

/-- The interval scan of max_bmoment over the singularity points: the
i-th point s is skipped when it equals 0; otherwise the scanned
interval runs from the preceding point (the LAST point when i = 0, by
Python negative indexing) to s. -/
def scanIntervals (curve : NExpr) (solver : ℚ → ℚ → Option (List ℚ))
    (pts : List ℚ) : List ℚ × List PtOrI :=
  (List.range pts.length).foldl
    (fun acc i =>
      let s := pts.getD i 0
      if s = 0 then acc
      else
        let prev := if i = 0 then (pts.getLast?).getD 0 else pts.getD (i - 1) 0
        let st := scanStep curve (solver prev s) prev s
        (acc.1 ++ st.1, acc.2 ++ st.2))
    ([], [])

/-- `Beam.max_bmoment` on the (solved) load expression, parametrized by
a model `solver` of the sympy solve call on the NaN-guarded piecewise
shear curve over each interval: the per-interval candidate values are
collected, their absolute values taken, and the largest returned with
its recorded location as the pair (point, maximum). -/
def max_bmoment (load : NExpr) (solver : ℚ → ℚ → Option (List ℚ)) : PtOrI × ℚ :=
  let curve := bendN load
  let scanned := scanIntervals curve solver (singularityPoints curve)
  let avals := scanned.1.map (fun v => |v|)
  let m := pyMax avals
  (scanned.2.getD (idxOf avals m) (PtOrI.pt 0), m)

/-- Soundness of a solver model with respect to a derivative curve:
every root returned for an interval is a genuine zero of the curve
strictly inside the open interval. -/
def SolverSound (deriv : NExpr) (solver : ℚ → ℚ → Option (List ℚ)) : Prop :=
  ∀ prev s zs, solver prev s = some zs →
    ∀ z ∈ zs, prev < z ∧ z < s ∧ subsN deriv z = 0

/-- The load expression of the C2 beam at reaction values r0 and rL:
pin at 0, roller at L, downward point load of magnitude P at the
midpoint L/2. -/
def loadC2 (P L r0 rL : ℚ) : NExpr := [⟨r0, 0, -1⟩, ⟨-P, L/2, -1⟩, ⟨rL, L, -1⟩]

/-- The deflection curve assembled by solve_for_reaction_loads:
integrate(integrate(bending_moment) + C3) + C4, evaluated at x. -/
def deflCurveC2 (P L r0 rL c3 c4 x : ℚ) : ℚ :=
  subsN (integN (integN (bendN (loadC2 P L r0 rL)))) x + c3 * x + c4

/-- Satisfaction of the system assembled by solve_for_reaction_loads
for the C2 beam: shear and moment right limits at L and the deflection
boundary conditions of the pin (at 0) and the roller (at L). -/
def sysC2 (P L r0 rL c3 c4 : ℚ) : Prop :=
  limitRN (shearN (loadC2 P L r0 rL)) L = 0 ∧
  limitRN (bendN (loadC2 P L r0 rL)) L = 0 ∧
  deflCurveC2 P L r0 rL c3 c4 0 = 0 ∧
  deflCurveC2 P L r0 rL c3 c4 L = 0

theorem sysC2_iff (P L r0 rL c3 c4 : ℚ) (hP : 0 < P) (hL : 0 < L) :
    sysC2 P L r0 rL c3 c4 ↔
      (r0 = P/2 ∧ rL = P/2 ∧ c3 = P*L^2/16 ∧ c4 = 0) := by
  rw [sysC2]
  norm_num [loadC2, deflCurveC2, shearN, bendN, integN, negN, limitRN, subsN, Int.toNat,
    hL.le, show ¬(L ≤ 0) by linarith, show ¬(L/2 ≤ 0) by linarith]
  constructor
  · rintro ⟨h1, h2, h3, h4⟩
    have hr0 : r0 = P / 2 := by
      have hz : (r0 - P / 2) * L = 0 := by linear_combination -h2
      rcases mul_eq_zero.mp hz with h | h
      · linarith
      · exact absurd h (by linarith)
    have hc4 : c4 = 0 := h3
    rw [hr0, hc4] at h4
    have hc3 : c3 = P * L ^ 2 / 16 := by
      have hz : (c3 - P * L ^ 2 / 16) * L = 0 := by linear_combination h4
      rcases mul_eq_zero.mp hz with h | h
      · linarith
      · exact absurd h (by linarith)
    refine ⟨hr0, by linarith, hc3, hc4⟩
  · rintro ⟨h1, h2, h3, h4⟩
    rw [h1, h2, h3, h4]
    refine ⟨by ring, by ring, by ring, by ring⟩

theorem singPointsC2 (P L : ℚ) (hP : 0 < P) (hL : 0 < L) :
    singularityPoints (bendN (loadC2 P L (P/2) (P/2))) = [0, L/2, L] := by
  have hanch : (bendN (loadC2 P L (P/2) (P/2))).map (fun t => t.a) = [0, L/2, L] := by
    simp [loadC2, bendN, shearN, integN, negN]
  rw [singularityPoints, hanch]
  norm_num [sortQ, insertQ, dedupAdj,
    show (L/2 : ℚ) ≤ L by linarith, show (0:ℚ) ≤ L/2 by linarith,
    show ¬((0:ℚ) = L/2) by intro h; linarith,
    show ¬((L/2 : ℚ) = L) by intro h; linarith]

theorem scanIntervals_three (curve : NExpr) (solver : ℚ → ℚ → Option (List ℚ))
    (p1 p2 : ℚ) (h1 : p1 ≠ 0) (h2 : p2 ≠ 0) :
    scanIntervals curve solver [0, p1, p2] =
      ((scanStep curve (solver 0 p1) 0 p1).1 ++ (scanStep curve (solver p1 p2) p1 p2).1,
       (scanStep curve (solver 0 p1) 0 p1).2 ++ (scanStep curve (solver p1 p2) p1 p2).2) := by
  rw [scanIntervals, show ([0, p1, p2] : List ℚ).length = 3 from rfl,
    show List.range 3 = [0, 1, 2] from by decide]
  simp [List.foldl, h1, h2]

theorem maxBmomentC2 (P L : ℚ) (hP : 0 < P) (hL : 0 < L)
    (solver : ℚ → ℚ → Option (List ℚ))
    (hsound : SolverSound (shearN (loadC2 P L (P/2) (P/2))) solver) :
    max_bmoment (loadC2 P L (P/2) (P/2)) solver = (PtOrI.pt (L/2), P*L/4) := by
  have hML4 : (0:ℚ) < P*L/4 := by positivity
  have hb0 : limitRN (bendN (loadC2 P L (P/2) (P/2))) 0 = 0 := by
    norm_num [loadC2, bendN, shearN, integN, negN, limitRN, Int.toNat,
      show ¬((L:ℚ)/2 ≤ 0) by linarith, show ¬((L:ℚ) ≤ 0) by linarith]
  have hbL2L : limitLN (bendN (loadC2 P L (P/2) (P/2))) (L/2) = -(P*L/4) := by
    norm_num [loadC2, bendN, shearN, integN, negN, limitLN, Int.toNat,
      show ((0:ℚ) < L/2) by linarith, show ¬((L:ℚ) < L/2) by linarith]
    ring
  have hbL2R : limitRN (bendN (loadC2 P L (P/2) (P/2))) (L/2) = -(P*L/4) := by
    norm_num [loadC2, bendN, shearN, integN, negN, limitRN, Int.toNat,
      show ((0:ℚ) ≤ L/2) by linarith, show ¬((L:ℚ) ≤ L/2) by linarith]
    ring
  have hbLL : limitLN (bendN (loadC2 P L (P/2) (P/2))) L = 0 := by
    norm_num [loadC2, bendN, shearN, integN, negN, limitLN, Int.toNat,
      hL, show ((L:ℚ)/2 < L) by linarith]
    ring
  have hm1 : subsN (bendN (loadC2 P L (P/2) (P/2))) ((0 + L/2)/2) = (0 + -(P*L/4))/2 := by
    norm_num [loadC2, bendN, shearN, integN, negN, subsN, Int.toNat]
    rw [if_pos (show (0:ℚ) ≤ L/2/2 by linarith),
        if_neg (show ¬((L:ℚ)/2 ≤ L/2/2) by intro h; linarith),
        if_neg (show ¬((L:ℚ) ≤ L/2/2) by intro h; linarith)]
    ring
  have hm2 : subsN (bendN (loadC2 P L (P/2) (P/2))) ((L/2 + L)/2) = (-(P*L/4) + 0)/2 := by
    norm_num [loadC2, bendN, shearN, integN, negN, subsN, Int.toNat,
      show ((0:ℚ) ≤ (L/2 + L)/2) by linarith, show ((L:ℚ)/2 ≤ (L/2 + L)/2) by linarith,
      show ¬((L:ℚ) ≤ (L/2 + L)/2) by linarith]
    ring
  have hsh1 : ∀ z, 0 < z → z < L/2 → subsN (shearN (loadC2 P L (P/2) (P/2))) z = -(P/2) := by
    intro z hz1 hz2
    norm_num [loadC2, shearN, integN, negN, subsN, Int.toNat,
      hz1.le, show ¬((L:ℚ)/2 ≤ z) by linarith, show ¬((L:ℚ) ≤ z) by linarith]
  have hsh2 : ∀ z, L/2 < z → z < L → subsN (shearN (loadC2 P L (P/2) (P/2))) z = P/2 := by
    intro z hz1 hz2
    norm_num [loadC2, shearN, integN, negN, subsN, Int.toNat,
      show ((0:ℚ) ≤ z) by linarith, show ((L:ℚ)/2 ≤ z) by linarith,
      show ¬((L:ℚ) ≤ z) by linarith]
    ring
  have hzs1 : ∀ zs, solver 0 (L/2) = some zs → zs = [] := by
    intro zs hs
    by_contra hne
    obtain ⟨z, hz⟩ := List.exists_mem_of_ne_nil zs hne
    obtain ⟨hz1, hz2, hz3⟩ := hsound 0 (L/2) zs hs z hz
    rw [hsh1 z hz1 hz2] at hz3
    linarith
  have hzs2 : ∀ zs, solver (L/2) L = some zs → zs = [] := by
    intro zs hs
    by_contra hne
    obtain ⟨z, hz⟩ := List.exists_mem_of_ne_nil zs hne
    obtain ⟨hz1, hz2, hz3⟩ := hsound (L/2) L zs hs z hz
    rw [hsh2 z hz1 hz2] at hz3
    linarith
  have hstep1try : scanStep (bendN (loadC2 P L (P/2) (P/2))) (some []) 0 (L/2) =
      ([P*L/4], [PtOrI.pt (L/2)]) := by
    simp only [scanStep, List.map_nil, List.nil_append]
    rw [hb0, hbL2L, abs_zero, abs_neg, abs_of_nonneg hML4.le]
    rw [show pyMax [0, P*L/4] = P*L/4 from by
      simp [pyMax, List.foldl, max_eq_right hML4.le]]
    rw [show idxOf [0, P*L/4] (P*L/4) = 1 from by
      rw [idxOf, List.indexOf_cons_ne _ (ne_of_lt hML4), List.indexOf_cons_self]]
    rfl
  have hstep1exc : scanStep (bendN (loadC2 P L (P/2) (P/2))) none 0 (L/2) =
      ([0, -(P*L/4)], [PtOrI.pt 0, PtOrI.pt (L/2)]) := by
    simp only [scanStep]
    rw [hb0, hbL2L]
    rw [if_pos (And.intro hm1 (by intro h; linarith))]
  have hstep2try : scanStep (bendN (loadC2 P L (P/2) (P/2))) (some []) (L/2) L =
      ([P*L/4], [PtOrI.pt (L/2)]) := by
    simp only [scanStep, List.map_nil, List.nil_append]
    rw [hbL2R, hbLL, abs_zero, abs_neg, abs_of_nonneg hML4.le]
    rw [show pyMax [P*L/4, 0] = P*L/4 from by
      simp [pyMax, List.foldl, max_eq_left hML4.le]]
    rw [show idxOf [P*L/4, 0] (P*L/4) = 0 from by
      rw [idxOf, List.indexOf_cons_self]]
    rfl
  have hstep2exc : scanStep (bendN (loadC2 P L (P/2) (P/2))) none (L/2) L =
      ([-(P*L/4), 0], [PtOrI.pt (L/2), PtOrI.pt L]) := by
    simp only [scanStep]
    rw [hbL2R, hbLL]
    rw [if_pos (And.intro hm2 (by intro h; linarith))]
  simp only [max_bmoment]
  rw [singPointsC2 P L hP hL]
  rw [scanIntervals_three _ _ _ _ (by positivity) (by positivity)]
  rcases hsol1 : solver 0 (L/2) with _ | zs1
  · rw [hstep1exc]
    rcases hsol2 : solver (L/2) L with _ | zs2
    · rw [hstep2exc]
      simp only [List.cons_append, List.nil_append, List.map_cons, List.map_nil]
      rw [abs_zero, abs_neg, abs_of_nonneg hML4.le]
      rw [show pyMax [0, P*L/4, P*L/4, 0] = P*L/4 from by
        simp [pyMax, List.foldl, max_eq_right hML4.le, max_eq_left hML4.le]]
      rw [show idxOf [0, P*L/4, P*L/4, 0] (P*L/4) = 1 from by
        rw [idxOf, List.indexOf_cons_ne _ (ne_of_lt hML4), List.indexOf_cons_self]]
      rfl
    · rw [hzs2 zs2 hsol2, hstep2try]
      simp only [List.cons_append, List.nil_append, List.map_cons, List.map_nil]
      rw [abs_zero, abs_neg, abs_of_nonneg hML4.le]
      rw [show pyMax [0, P*L/4, P*L/4] = P*L/4 from by
        simp [pyMax, List.foldl, max_eq_right hML4.le]]
      rw [show idxOf [0, P*L/4, P*L/4] (P*L/4) = 1 from by
        rw [idxOf, List.indexOf_cons_ne _ (ne_of_lt hML4), List.indexOf_cons_self]]
      rfl
  · rw [hzs1 zs1 hsol1, hstep1try]
    rcases hsol2 : solver (L/2) L with _ | zs2
    · rw [hstep2exc]
      simp only [List.cons_append, List.nil_append, List.map_cons, List.map_nil]
      rw [abs_neg, abs_of_nonneg hML4.le, abs_zero]
      rw [show pyMax [P*L/4, P*L/4, 0] = P*L/4 from by
        simp [pyMax, List.foldl, max_eq_left hML4.le]]
      rw [show idxOf [P*L/4, P*L/4, 0] (P*L/4) = 0 from by
        rw [idxOf, List.indexOf_cons_self]]
      rfl
    · rw [hzs2 zs2 hsol2, hstep2try]
      simp only [List.cons_append, List.nil_append, List.map_cons, List.map_nil]
      rw [abs_of_nonneg hML4.le]
      rw [show pyMax [P*L/4, P*L/4] = P*L/4 from by
        simp [pyMax, List.foldl]]
      rw [show idxOf [P*L/4, P*L/4] (P*L/4) = 0 from by
        rw [idxOf, List.indexOf_cons_self]]
      rfl

/-- Claim C2.  For the simply supported beam of length L (pin at 0,
roller at L) carrying a single downward point load of magnitude P at
the midpoint: the system assembled by solve_for_reaction_loads has the
unique solution R_0 = R_L = P/2 (so the stored reaction values are each
P/2 in magnitude), and max_bmoment on the substituted load returns the
maximum bending-moment magnitude P*L/4 located at x = L/2, for every
sound model of the interior root solve (and in both the try and the
except branch of each interval, as the case split of the proof shows). -/
theorem claim_C2 (P L : ℚ) (hP : 0 < P) (hL : 0 < L)
    (solver : ℚ → ℚ → Option (List ℚ))
    (hsound : SolverSound (shearN (loadC2 P L (P/2) (P/2))) solver) :
    (∀ r0 rL c3 c4, sysC2 P L r0 rL c3 c4 ↔
      (r0 = P/2 ∧ rL = P/2 ∧ c3 = P*L^2/16 ∧ c4 = 0)) ∧
    max_bmoment (loadC2 P L (P/2) (P/2)) solver = (PtOrI.pt (L/2), P*L/4) :=
  ⟨fun r0 rL c3 c4 => sysC2_iff P L r0 rL c3 c4 hP hL,
   maxBmomentC2 P L hP hL solver hsound⟩

/-- Witness for C2: P = 6, L = 4, with the solver model returning no
interior roots (the shear of this beam has none). -/
theorem claim_C2_witness :
    ((0 : ℚ) < 6) ∧ ((0 : ℚ) < 4) ∧
    SolverSound (shearN (loadC2 6 4 (6/2) (6/2))) (fun _ _ => some []) ∧
    ((∀ r0 rL c3 c4, sysC2 6 4 r0 rL c3 c4 ↔
      (r0 = 6/2 ∧ rL = 6/2 ∧ c3 = 6*4^2/16 ∧ c4 = 0)) ∧
    max_bmoment (loadC2 6 4 (6/2) (6/2)) (fun _ _ => some []) =
      (PtOrI.pt (4/2), 6*4/4)) := by
  have hsound : SolverSound (shearN (loadC2 6 4 (6/2) (6/2))) (fun _ _ => some []) := by
    intro prev s zs hz z hzz
    obtain rfl : ([] : List ℚ) = zs := (Option.some.injEq _ _).mp hz
    exact absurd hzz (List.not_mem_nil z)
  exact ⟨by norm_num, by norm_num, hsound,
    claim_C2 6 4 (by norm_num) (by norm_num) (fun _ _ => some []) hsound⟩

end BeamSpec
